import Mathlib

/-!
A shallow embedding of the rmath dense linear-algebra kernel (the dynamically
sized crate variant under src/core) and proofs about its operations.

Modelling conventions:
  * The f64 element type is modelled as ℚ, i.e. the arithmetic the source
    performs is taken exactly; f64::EPSILON is the exact rational 2^-52.
  * Rust Result is modelled as Except String; error message texts are
    abbreviated (only their presence and identity matter to the properties).
  * Flat buffer indexing self.data[idx] is modelled with List.getD idx 0;
    the structural engine only ever indexes in bounds, where the two agree.
  * Loops that fill every cell of a freshly allocated buffer exactly once
    (multiply) are modelled as the row-major table of the assigned values;
    loops that overwrite cells of an existing buffer (identity, the cofactor
    loop of inverse, swap_rows, the elimination loop of rank) are modelled as
    folds of List.set over the written indices, in the source's write order.
-/

namespace RMath

/-- The Matrix record of src/core/matrix.rs: row-major flat element list plus
explicit row and column counts. -/
structure Matrix where
  data : List ℚ
  rows : ℕ
  columns : ℕ
  deriving DecidableEq

/-- Element access self.data[idx]; out of range indexing is a fatal fault in the
source and is modelled by the default 0. -/
def Matrix.get (m : Matrix) (i : ℕ) : ℚ := m.data.getD i 0

/-- f64::EPSILON, the machine epsilon 2^-52, as an exact rational. -/
def eps : ℚ := 1 / 2 ^ 52

/-- helpers.rs check_multiplication_compatible: requires self.columns == other.rows. -/
def Matrix.check_multiplication_compatible (a b : Matrix) : Except String Unit :=
  if a.columns ≠ b.rows then
    .error "Matrix dimensions incompatible for multiplication"
  else .ok ()

/-- helpers.rs check_dimensions_match: requires identical rows and columns. -/
def Matrix.check_dimensions_match (a b : Matrix) : Except String Unit :=
  if a.rows ≠ b.rows ∨ a.columns ≠ b.columns then
    .error "Dimension mismatch"
  else .ok ()

/-- helpers.rs check_square: requires rows == columns. -/
def Matrix.check_square (m : Matrix) : Except String Unit :=
  if m.rows ≠ m.columns then .error "Matrix is not square" else .ok ()

/-- helpers.rs check_vector: true iff the matrix is 1 x n or n x 1. -/
def Matrix.check_vector (m : Matrix) : Bool :=
  m.rows == 1 || m.columns == 1

/-- helpers.rs check_3d_vector, line 151, with Rust operator precedence kept
exactly: && binds tighter than ||, so the length conjunct attaches to the
1 x 3 disjunct only. -/
def Matrix.check_3d_vector (m : Matrix) : Bool :=
  (m.rows == 3 && m.columns == 1) || (m.rows == 1 && m.columns == 3) && m.data.length == 3

/-- Modelled from the spec: the strict 3D-vector check the spec mandates in
section 4.1 and section 9 (shape is exactly 3 x 1 or 1 x 3, AND the total
element count is exactly 3). -/
def Matrix.check_3d_vector_strict (m : Matrix) : Bool :=
  ((m.rows == 3 && m.columns == 1) || (m.rows == 1 && m.columns == 3)) && m.data.length == 3

/-- constructors.rs ones. -/
def ones (rows columns : ℕ) : Matrix :=
  ⟨List.replicate (rows * columns) 1, rows, columns⟩

/-- constructors.rs zeros. -/
def zeros (rows columns : ℕ) : Matrix :=
  ⟨List.replicate (rows * columns) 0, rows, columns⟩

/-- constructors.rs identity: a zero buffer with data[i*size+i] = 1.0 written
for each i, modelled as a fold of List.set in the source's write order. -/
def identity (size : ℕ) : Matrix :=
  ⟨(List.range size).foldl (fun d i => d.set (i * size + i) 1)
      (List.replicate (size * size) 0), size, size⟩

/-- helpers.rs scalar_operation: maps op(element, scalar) over the data. -/
def Matrix.scalar_operation (m : Matrix) (scalar : ℚ) (op : ℚ → ℚ → ℚ) : Matrix :=
  ⟨m.data.map (fun a => op a scalar), m.rows, m.columns⟩

/-- operations.rs scalar_multiplication. -/
def Matrix.scalar_multiplication (m : Matrix) (scalar : ℚ) : Matrix :=
  m.scalar_operation scalar (fun a b => a * b)

/-- operations.rs dot_product: both operands must be vectors of matching shape;
sum of elementwise products over the zipped data. -/
def Matrix.dot_product (a b : Matrix) : Except String ℚ :=
  if ! a.check_vector || ! b.check_vector then
    .error "Both matrices must be vectors (1xN or Nx1)"
  else
    match a.check_dimensions_match b with
    | .error e => .error e
    | .ok _ => .ok ((a.data.zip b.data).map (fun p => p.1 * p.2)).sum

/-- operations.rs cross_product: both operands must pass check_3d_vector; the
result is always built with rows = 3, columns = 1. -/
def Matrix.cross_product (a b : Matrix) : Except String Matrix :=
  if ! a.check_3d_vector || ! b.check_3d_vector then
    .error "Cross product only defined for 3D vectors (length 3)"
  else
    .ok ⟨[a.get 1 * b.get 2 - a.get 2 * b.get 1,
          a.get 2 * b.get 0 - a.get 0 * b.get 2,
          a.get 0 * b.get 1 - a.get 1 * b.get 0], 3, 1⟩

/-- Model of f64::sqrt.  Of the magnitude it produces, the embedded operations
only ever observe the comparison against 0; on the nonnegative inputs produced
by dot_product of a vector with itself, sqrtQ agrees with the real square root
on that observation: it is 0 exactly on 0 and positive on positive input. -/
def sqrtQ (x : ℚ) : ℚ := if x ≤ 0 then 0 else x

/-- operations.rs magnitude: vector check, then square root of self dot self. -/
def Matrix.magnitude (m : Matrix) : Except String ℚ :=
  if ! m.check_vector then
    .error "Matrix must be a vector to calculate magnitude"
  else (m.dot_product m).map sqrtQ

/-- operations.rs normalize (in place): modelled as a function returning the
Result together with the post state of the receiver.  Both error returns
happen before the mutation loop runs. -/
def Matrix.normalize (m : Matrix) : Except String Unit × Matrix :=
  match m.magnitude with
  | .error e => (.error e, m)
  | .ok mag =>
    if mag = 0 then (.error "Cannot normalize zero-length vector", m)
    else (.ok (), ⟨m.data.map (fun a => a / mag), m.rows, m.columns⟩)

/-- Row-major table: the element at flat index i * c + j is f i j, for
i < r, j < c.  Models loops that assign every cell of a fresh r*c buffer
exactly once in row-major order. -/
def rowMajor (r c : ℕ) (f : ℕ → ℕ → ℚ) : List ℚ :=
  (List.range r).flatMap (fun i => (List.range c).map (f i))

/-- operations.rs multiply: compatibility check, then the triple nested loop
filling result[i * other.columns + j] with the running sum over k. -/
def Matrix.multiply (a b : Matrix) : Except String Matrix :=
  match a.check_multiplication_compatible b with
  | .error e => .error e
  | .ok _ =>
    .ok ⟨rowMajor a.rows b.columns (fun i j =>
          (List.range a.columns).foldl
            (fun sum k => sum + a.get (i * a.columns + k) * b.get (k * b.columns + j)) 0),
        a.rows, b.columns⟩

/-- The element list the minor loop of operations.rs pushes: a linear scan over
all rows and columns skipping the excluded row and column, preserving order. -/
def minorData (m : Matrix) (row col : ℕ) : List ℚ :=
  ((List.range m.rows).filter (fun i => decide (i ≠ row))).flatMap (fun i =>
    ((List.range m.columns).filter (fun j => decide (j ≠ col))).map (fun j =>
      m.get (i * m.columns + j)))

/-- The matrix value minor returns on success: the scanned data with
rows = columns = self.rows - 1. -/
def minorMatrix (m : Matrix) (row col : ℕ) : Matrix :=
  ⟨minorData m row col, m.rows - 1, m.rows - 1⟩

/-- operations.rs minor: square check, bounds check, then the scan. -/
def Matrix.minor (m : Matrix) (row col : ℕ) : Except String Matrix :=
  match m.check_square with
  | .error e => .error e
  | .ok _ =>
    if m.rows ≤ row ∨ m.columns ≤ col then
      .error "Row or column out of bounds"
    else .ok (minorMatrix m row col)

/-- The numeric core of operations.rs determinant, indexed by self.rows (the
value the source matches on).  Order 1, 2 and 3 are the closed forms of the
source; every other order runs the Laplace accumulation loop over the columns.
In the source the matched value 0 also lands in the catch-all Laplace arm, but
there (square already checked) columns = 0 and the loop returns the
accumulator 0, which is the 0 case here.  The minor calls inside the loop are
in bounds and square, so they cannot fail (lemma minor_eq_ok below); their
successful value is minorMatrix, whose rows field is self.rows - 1, matching
the recursion index n + 3. -/
def detValN : ℕ → Matrix → ℚ
  | 0, _ => 0
  | 1, m => m.get 0
  | 2, m => m.get 0 * m.get 3 - m.get 1 * m.get 2
  | 3, m =>
      m.get 0 * m.get 4 * m.get 8 +
      m.get 1 * m.get 5 * m.get 6 +
      m.get 2 * m.get 3 * m.get 7 -
      m.get 2 * m.get 4 * m.get 6 -
      m.get 1 * m.get 3 * m.get 8 -
      m.get 0 * m.get 5 * m.get 7
  | n + 4, m =>
      (List.range m.columns).foldl
        (fun det col =>
          det + m.get col * (if col % 2 = 0 then (1 : ℚ) else -1) *
            detValN (n + 3) (minorMatrix m 0 col)) 0

/-- The determinant value of a matrix (meaningful once the square check of
determinant has passed). -/
def detVal (m : Matrix) : ℚ := detValN m.rows m

/-- operations.rs determinant: square check, then the order state machine. -/
def Matrix.determinant (m : Matrix) : Except String ℚ :=
  match m.check_square with
  | .error e => .error e
  | .ok _ => .ok (detVal m)

/-- The singular error message of operations.rs inverse. -/
def singularMsg : String := "Matrix is singular, cannot invert"

/-- The cofactor buffer of operations.rs inverse: starts from ones(size, size)
and, for row then col in 0..size, writes sign * det(minor(row, col)) at flat
index col * size + row (the fused adjugate transposition).  Modelled as a fold
of List.set over the writes in the source's order.  The minor and determinant
calls inside the loop are square and in bounds, hence never fail. -/
def cofactorData (m : Matrix) : List ℚ :=
  ((List.range m.rows).flatMap (fun row => (List.range m.rows).map (fun col =>
      (col * m.rows + row,
       (if (row + col) % 2 = 0 then (1 : ℚ) else -1) * detVal (minorMatrix m row col))))).foldl
    (fun d p => d.set p.1 p.2) (ones m.rows m.rows).data

/-- operations.rs inverse: square check, determinant, singular test against
f64::EPSILON, cofactor loop, then division of every element by the
determinant. -/
def Matrix.inverse (m : Matrix) : Except String Matrix :=
  match m.check_square with
  | .error e => .error e
  | .ok _ =>
    match m.determinant with
    | .error e => .error e
    | .ok det =>
      if |det| < eps then .error singularMsg
      else
        .ok (Matrix.scalar_operation ⟨cofactorData m, m.rows, m.rows⟩ det (fun x d => x / d))

/-- helpers.rs swap_rows: silent no-op when either index is out of bounds,
otherwise swaps the two rows column by column in place. -/
def Matrix.swap_rows (m : Matrix) (row1 row2 : ℕ) : Matrix :=
  if m.rows ≤ row1 ∨ m.rows ≤ row2 then m
  else
    ⟨(List.range m.columns).foldl (fun d col =>
        (d.set (row1 * m.columns + col) (d.getD (row2 * m.columns + col) 0)).set
          (row2 * m.columns + col) (d.getD (row1 * m.columns + col) 0)) m.data,
     m.rows, m.columns⟩

/-- The elimination body of operations.rs rank for one row: compute the factor
from the current working data, and if its absolute value exceeds epsilon,
subtract factor times the pivot row from this row over columns col.. . -/
def rowReduce (selfCols rank col : ℕ) (mat : Matrix) (row : ℕ) : Matrix :=
  let factor := mat.get (row * selfCols + col) / mat.get (rank * selfCols + col)
  if eps < |factor| then
    (List.range' col (selfCols - col)).foldl (fun mat2 c =>
      ⟨mat2.data.set (row * selfCols + c)
          (mat2.get (row * selfCols + c) - factor * mat2.get (rank * selfCols + c)),
        mat2.rows, mat2.columns⟩) mat
  else mat

/-- One column step of operations.rs rank: pivot search over rows
rank..self.rows on the working copy, optional row swap, elimination over every
row other than the pivot row, and the rank increment. -/
def rankStep (selfRows selfCols : ℕ) (st : Matrix × ℕ) (col : ℕ) : Matrix × ℕ :=
  match (List.range' st.2 (selfRows - st.2)).find?
      (fun row => decide (eps < |st.1.get (row * selfCols + col)|)) with
  | none => st
  | some pivot_row =>
    let mat := if pivot_row ≠ st.2 then st.1.swap_rows pivot_row st.2 else st.1
    let mat2 := ((List.range selfRows).filter (fun r => decide (r ≠ st.2))).foldl
        (rowReduce selfCols st.2 col) mat
    (mat2, st.2 + 1)

/-- operations.rs rank: Gaussian elimination on a working copy, iterating col
over 0..min(rows, columns) and returning the pivot count. -/
def Matrix.rank (m : Matrix) : ℕ :=
  ((List.range (min m.rows m.columns)).foldl (rankStep m.rows m.columns) (m, 0)).2

/-! Basic facts about list indexing with a default, used to reason about the
flat row-major buffers. -/

instance {ε α : Type} [DecidableEq ε] [DecidableEq α] : DecidableEq (Except ε α) :=
  fun x y =>
    match x, y with
    | .error a, .error b =>
      if h : a = b then .isTrue (by rw [h]) else .isFalse (fun hc => h (Except.error.inj hc))
    | .ok a, .ok b =>
      if h : a = b then .isTrue (by rw [h]) else .isFalse (fun hc => h (Except.ok.inj hc))
    | .error _, .ok _ => .isFalse (fun hc => Except.noConfusion hc)
    | .ok _, .error _ => .isFalse (fun hc => Except.noConfusion hc)

lemma getD_map_zero (f : ℚ → ℚ) (hf : f 0 = 0) (l : List ℚ) (i : ℕ) :
    (l.map f).getD i 0 = f (l.getD i 0) := by
  induction l generalizing i with
  | nil => simpa using hf.symm
  | cons a t ih =>
    cases i with
    | zero => rfl
    | succ j => simpa using ih j

lemma getD_replicate_zero (n i : ℕ) : (List.replicate n (0 : ℚ)).getD i 0 = 0 := by
  induction n generalizing i with
  | zero => rfl
  | succ k ih =>
    cases i with
    | zero => rfl
    | succ j => exact ih j

lemma getD_set_self (l : List ℚ) (i : ℕ) (a : ℚ) (h : i < l.length) :
    (l.set i a).getD i 0 = a := by
  induction l generalizing i with
  | nil => simp at h
  | cons b t ih =>
    cases i with
    | zero => rfl
    | succ j => simpa using ih j (by simpa using h)

lemma getD_set_ne (l : List ℚ) (i j : ℕ) (a : ℚ) (h : i ≠ j) :
    (l.set i a).getD j 0 = l.getD j 0 := by
  induction l generalizing i j with
  | nil => rfl
  | cons b t ih =>
    cases i with
    | zero =>
      cases j with
      | zero => exact absurd rfl h
      | succ j2 => rfl
    | succ i2 =>
      cases j with
      | zero => rfl
      | succ j2 => simpa using ih i2 j2 (by omega)

lemma length_foldl_set (l : List (ℕ × ℚ)) (d : List ℚ) :
    (l.foldl (fun d2 p => d2.set p.1 p.2) d).length = d.length := by
  induction l generalizing d with
  | nil => rfl
  | cons p t ih => simpa [List.foldl_cons, List.length_set] using ih (d.set p.1 p.2)

lemma foldl_set_getD_of_no_write (l : List (ℕ × ℚ)) (d : List ℚ) (k : ℕ)
    (h : ∀ p ∈ l, p.1 ≠ k) :
    (l.foldl (fun d2 p => d2.set p.1 p.2) d).getD k 0 = d.getD k 0 := by
  induction l generalizing d with
  | nil => rfl
  | cons p t ih =>
    rw [List.foldl_cons, ih _ (fun q hq => h q (List.mem_cons_of_mem _ hq))]
    exact getD_set_ne d p.1 k p.2 (h p (List.mem_cons_self _ _))

lemma foldl_set_getD_of_unique (l : List (ℕ × ℚ)) (d : List ℚ) (k : ℕ) (v : ℚ)
    (hk : k < d.length) (hmem : (k, v) ∈ l)
    (huniq : ∀ p ∈ l, p.1 = k → p.2 = v) :
    (l.foldl (fun d2 p => d2.set p.1 p.2) d).getD k 0 = v := by
  induction l generalizing d with
  | nil => cases hmem
  | cons p t ih =>
    rw [List.foldl_cons]
    by_cases hwt : ∃ q ∈ t, q.1 = k
    · obtain ⟨q, hqt, hqk⟩ := hwt
      have hqv : q.2 = v := huniq q (List.mem_cons_of_mem _ hqt) hqk
      have hkv : (k, v) ∈ t := by
        obtain ⟨q1, q2⟩ := q
        simp only at hqk hqv
        rwa [hqk, hqv] at hqt
      exact ih _ (by simpa [List.length_set] using hk) hkv
        (fun q hq => huniq q (List.mem_cons_of_mem _ hq))
    · push_neg at hwt
      rw [foldl_set_getD_of_no_write t _ k hwt]
      rcases List.mem_cons.mp hmem with hp | hp
      · rw [← hp]
        exact getD_set_self d k v hk
      · exact absurd rfl (hwt _ hp)

/-! The row-major table and its pointwise description. -/

lemma rowMajor_succ (r c : ℕ) (f : ℕ → ℕ → ℚ) :
    rowMajor (r + 1) c f = rowMajor r c f ++ (List.range c).map (f r) := by
  unfold rowMajor
  rw [List.range_succ, List.flatMap_append]
  simp

lemma rowMajor_length (r c : ℕ) (f : ℕ → ℕ → ℚ) : (rowMajor r c f).length = r * c := by
  induction r with
  | zero => simp [rowMajor]
  | succ n ih =>
    rw [rowMajor_succ, List.length_append, ih]
    simp [Nat.succ_mul]

lemma getD_map_range (c j : ℕ) (f : ℕ → ℚ) (hj : j < c) :
    ((List.range c).map f).getD j 0 = f j := by
  rw [List.getD_eq_getElem _ _ (by simpa using hj), List.getElem_map, List.getElem_range]

lemma rowMajor_getD (r c i j : ℕ) (f : ℕ → ℕ → ℚ) (hi : i < r) (hj : j < c) :
    (rowMajor r c f).getD (i * c + j) 0 = f i j := by
  induction r with
  | zero => omega
  | succ n ih =>
    rw [rowMajor_succ]
    rcases Nat.lt_succ_iff_lt_or_eq.mp hi with h | h
    · rw [List.getD_append]
      · exact ih h
      · rw [rowMajor_length]
        calc i * c + j < i * c + c := by omega
        _ = (i + 1) * c := (Nat.succ_mul i c).symm
        _ ≤ n * c := Nat.mul_le_mul_right c (by omega)
    · subst h
      rw [List.getD_append_right _ _ _ _ (by rw [rowMajor_length]; exact Nat.le_add_right _ _)]
      rw [rowMajor_length]
      have : i * c + j - i * c = j := by omega
      rw [this]
      exact getD_map_range c j (f i) hj

/-- Flat row-major indices with the column index in range determine the pair. -/
lemma flat_index_inj {n i j r s : ℕ} (hj : j < n) (hs : s < n)
    (h : i * n + j = r * n + s) : i = r ∧ j = s := by
  have hn : 0 < n := by omega
  have hmod : ∀ a b : ℕ, b < n → (a * n + b) % n = b := by
    intro a b hb
    rw [Nat.mul_comm a n, Nat.mul_add_mod, Nat.mod_eq_of_lt hb]
  have hjs : j = s := by rw [← hmod i j hj, h, hmod r s hs]
  refine ⟨?_, hjs⟩
  have : i * n = r * n := by omega
  exact Nat.eq_of_mul_eq_mul_right hn this

lemma neg_one_pow_eq (k : ℕ) : ((-1 : ℚ)) ^ k = if k % 2 = 0 then 1 else -1 := by
  rcases Nat.even_or_odd k with h | h
  · rw [Even.neg_one_pow h, if_pos (Nat.even_iff.mp h)]
  · rw [Odd.neg_one_pow h, if_neg (by simp [Nat.odd_iff.mp h])]

/-- A running-sum loop is the sum of the mapped list. -/
lemma foldl_add_map (f : ℕ → ℚ) (l : List ℕ) (s : ℚ) :
    l.foldl (fun acc x => acc + f x) s = s + (l.map f).sum := by
  induction l generalizing s with
  | nil => simp
  | cons a t ih => simp [List.foldl_cons, ih, add_assoc]

/-! The success paths of the shape checks. -/

lemma check_square_ok {m : Matrix} (h : m.rows = m.columns) : m.check_square = .ok () := by
  simp [Matrix.check_square, h]

lemma determinant_ok {m : Matrix} (h : m.rows = m.columns) :
    m.determinant = .ok (detVal m) := by
  simp [Matrix.determinant, check_square_ok h]

lemma minor_eq_ok {m : Matrix} {row col : ℕ} (hsq : m.rows = m.columns)
    (hrow : row < m.rows) (hcol : col < m.columns) :
    m.minor row col = .ok (minorMatrix m row col) := by
  simp only [Matrix.minor, check_square_ok hsq]
  rw [if_neg (by omega)]

/-! The identity constructor, described pointwise. -/

lemma identity_fold (n : ℕ) :
    (identity n).data = List.foldl (fun d2 p => d2.set p.1 p.2)
      (List.replicate (n * n) 0) ((List.range n).map (fun i => ((i * n + i : ℕ), (1 : ℚ)))) := by
  rw [List.foldl_map]
  rfl

lemma identity_length (n : ℕ) : (identity n).data.length = n * n := by
  rw [identity_fold, length_foldl_set, List.length_replicate]

lemma identity_get {n i j : ℕ} (hi : i < n) (hj : j < n) :
    (identity n).get (i * n + j) = if i = j then 1 else 0 := by
  unfold Matrix.get
  rw [identity_fold]
  by_cases hij : i = j
  · subst hij
    rw [if_pos rfl]
    apply foldl_set_getD_of_unique
    · rw [List.length_replicate]
      calc i * n + i < i * n + n := by omega
      _ = (i + 1) * n := (Nat.succ_mul i n).symm
      _ ≤ n * n := Nat.mul_le_mul_right n (by omega)
    · exact List.mem_map.mpr ⟨i, List.mem_range.mpr hi, rfl⟩
    · intro p hp _
      obtain ⟨r, _, hr⟩ := List.mem_map.mp hp
      rw [← hr]
  · rw [if_neg hij]
    rw [foldl_set_getD_of_no_write]
    · exact getD_replicate_zero _ _
    · intro p hp
      obtain ⟨r, hrmem, hr⟩ := List.mem_map.mp hp
      rw [← hr]
      intro hcontra
      obtain ⟨h1, h2⟩ := flat_index_inj (List.mem_range.mp hrmem) hj hcontra
      omega

/-! The minor scan, described pointwise via skipIdx. -/

/-- The i-th row index kept by the minor scan that deletes row r. -/
def skipIdx (r i : ℕ) : ℕ := if i < r then i else i + 1

lemma filter_ne_range (n r : ℕ) (h : r < n) :
    (List.range n).filter (fun i => decide (i ≠ r)) = (List.range (n - 1)).map (skipIdx r) := by
  induction n with
  | zero => omega
  | succ n ih =>
    rw [List.range_succ, List.filter_append, Nat.succ_sub_one]
    rcases Nat.lt_succ_iff_lt_or_eq.mp h with h2 | h2
    · have hfn : List.filter (fun i => decide (i ≠ r)) [n] = [n] := by
        simp only [List.filter_cons, List.filter_nil, decide_eq_true_eq]
        rw [if_pos (by omega : n ≠ r)]
      rw [hfn, ih h2]
      obtain ⟨m, rfl⟩ : ∃ m, n = m + 1 := ⟨n - 1, by omega⟩
      rw [List.range_succ, List.map_append, Nat.add_sub_cancel]
      congr 1
      simp only [List.map_cons, List.map_nil]
      unfold skipIdx
      rw [if_neg (by omega)]
    · subst h2
      have hfn : List.filter (fun i => decide (i ≠ r)) [r] = [] := by
        simp only [List.filter_cons, List.filter_nil, decide_eq_true_eq]
        rw [if_neg (by omega : ¬ r ≠ r)]
      rw [hfn, List.append_nil]
      rw [List.filter_eq_self.mpr]
      · symm
        calc (List.range r).map (skipIdx r)
            = (List.range r).map id := by
              apply List.map_congr_left
              intro a ha
              unfold skipIdx
              rw [if_pos (List.mem_range.mp ha)]
              rfl
        _ = List.range r := List.map_id _
      · intro a ha
        simp only [decide_eq_true_eq]
        exact Nat.ne_of_lt (List.mem_range.mp ha)

lemma minorData_eq {m : Matrix} {row col : ℕ} (hrow : row < m.rows) (hcol : col < m.columns) :
    minorData m row col = rowMajor (m.rows - 1) (m.columns - 1)
      (fun i j => m.get (skipIdx row i * m.columns + skipIdx col j)) := by
  unfold minorData rowMajor
  rw [filter_ne_range _ _ hrow, filter_ne_range _ _ hcol]
  rw [List.flatMap_map]
  congr 1
  funext i
  rw [List.map_map]
  rfl

lemma minorData_length {m : Matrix} {row col : ℕ} (hrow : row < m.rows) (hcol : col < m.columns) :
    (minorData m row col).length = (m.rows - 1) * (m.columns - 1) := by
  rw [minorData_eq hrow hcol, rowMajor_length]

lemma minorMatrix_get {m : Matrix} {row col i j : ℕ} (hrow : row < m.rows)
    (hcol : col < m.columns) (hi : i < m.rows - 1) (hj : j < m.columns - 1) :
    (minorMatrix m row col).get (i * (m.columns - 1) + j) =
      m.get (skipIdx row i * m.columns + skipIdx col j) := by
  unfold minorMatrix Matrix.get
  simp only
  rw [minorData_eq hrow hcol]
  exact rowMajor_getD _ _ _ _ _ hi hj

/-! Unfolding facts about the determinant core. -/

lemma detValN_laplace (n : ℕ) (m : Matrix) :
    detValN (n + 4) m = ((List.range m.columns).map
      (fun col => m.get col * (if col % 2 = 0 then (1 : ℚ) else -1) *
        detValN (n + 3) (minorMatrix m 0 col))).sum := by
  show (List.range m.columns).foldl _ 0 = _
  rw [foldl_add_map, zero_add]

lemma detVal_eq (m : Matrix) : detVal m = detValN m.rows m := rfl

lemma minorMatrix_rows (m : Matrix) (row col : ℕ) :
    (minorMatrix m row col).rows = m.rows - 1 := rfl

lemma minorMatrix_columns (m : Matrix) (row col : ℕ) :
    (minorMatrix m row col).columns = m.rows - 1 := rfl

/-! Scalar multiplication commutes with the determinant machinery. -/

lemma scale_rows (m : Matrix) (k : ℚ) : (m.scalar_multiplication k).rows = m.rows := rfl

lemma scale_columns (m : Matrix) (k : ℚ) : (m.scalar_multiplication k).columns = m.columns := rfl

lemma scale_get (m : Matrix) (k : ℚ) (i : ℕ) :
    (m.scalar_multiplication k).get i = m.get i * k := by
  show (m.data.map (fun a => a * k)).getD i 0 = m.data.getD i 0 * k
  exact getD_map_zero (fun a => a * k) (zero_mul k) m.data i

lemma minorData_scale (m : Matrix) (k : ℚ) (row col : ℕ) :
    minorData (m.scalar_multiplication k) row col = (minorData m row col).map (fun a => a * k) := by
  unfold minorData
  rw [List.map_flatMap]
  congr 1
  funext i
  rw [List.map_map]
  apply List.map_congr_left
  intro j _
  exact scale_get m k (i * m.columns + j)

lemma minorMatrix_scale (m : Matrix) (k : ℚ) (row col : ℕ) :
    minorMatrix (m.scalar_multiplication k) row col =
      (minorMatrix m row col).scalar_multiplication k := by
  unfold minorMatrix Matrix.scalar_multiplication Matrix.scalar_operation
  simp only [Matrix.mk.injEq]
  exact ⟨minorData_scale m k row col, trivial, trivial⟩

lemma detValN_scale : ∀ (n : ℕ) (m : Matrix) (k : ℚ),
    detValN n (m.scalar_multiplication k) = k ^ n * detValN n m := by
  intro n
  induction n using Nat.strong_induction_on with
  | _ n ih =>
    match n, ih with
    | 0, _ => intro m k; simp [detValN]
    | 1, _ => intro m k; simp only [detValN, scale_get]; ring
    | 2, _ => intro m k; simp only [detValN, scale_get]; ring
    | 3, _ => intro m k; simp only [detValN, scale_get]; ring
    | n + 4, ih =>
      intro m k
      rw [detValN_laplace, detValN_laplace]
      have hcols : (m.scalar_multiplication k).columns = m.columns := rfl
      rw [hcols]
      have hmap : (fun col => (m.scalar_multiplication k).get col *
            (if col % 2 = 0 then (1 : ℚ) else -1) *
            detValN (n + 3) (minorMatrix (m.scalar_multiplication k) 0 col)) =
          (fun col => k ^ (n + 4) * (m.get col * (if col % 2 = 0 then (1 : ℚ) else -1) *
            detValN (n + 3) (minorMatrix m 0 col))) := by
        funext col
        rw [scale_get, minorMatrix_scale, ih (n + 3) (by omega) (minorMatrix m 0 col) k]
        ring
      rw [hmap, List.sum_map_mul_left]

/-! The determinant of the identity matrix. -/

lemma skipIdx_zero (i : ℕ) : skipIdx 0 i = i + 1 := by
  unfold skipIdx
  rw [if_neg (Nat.not_lt_zero i)]

lemma identity_rows (n : ℕ) : (identity n).rows = n := rfl

lemma identity_columns (n : ℕ) : (identity n).columns = n := rfl

lemma minorMatrix_identity (n : ℕ) : minorMatrix (identity (n + 1)) 0 0 = identity n := by
  have h0r : (0 : ℕ) < (identity (n + 1)).rows := by rw [identity_rows]; omega
  have h0c : (0 : ℕ) < (identity (n + 1)).columns := by rw [identity_columns]; omega
  have hdata : minorData (identity (n + 1)) 0 0 = (identity n).data := by
    have hmd := @minorData_eq (identity (n + 1)) 0 0 h0r h0c
    rw [identity_rows, identity_columns, Nat.add_sub_cancel] at hmd
    apply List.ext_getElem
    · rw [minorData_length h0r h0c, identity_rows, identity_columns, Nat.add_sub_cancel,
        identity_length]
    · intro k hk1 hk2
      have hk2n : k < n * n := by rwa [identity_length] at hk2
      have hn : 0 < n := by
        rcases Nat.eq_zero_or_pos n with h0 | h0
        · rw [h0] at hk2n; omega
        · exact h0
      set i := k / n with hidef
      set j := k % n with hjdef
      have hi : i < n := (Nat.div_lt_iff_lt_mul hn).mpr hk2n
      have hj : j < n := Nat.mod_lt _ hn
      have hkij : k = i * n + j := by
        rw [hidef, hjdef, Nat.mul_comm]
        exact (Nat.div_add_mod k n).symm
      rw [← List.getD_eq_getElem _ 0 hk1, ← List.getD_eq_getElem _ 0 hk2]
      conv_lhs => rw [hkij]
      conv_rhs => rw [hkij]
      rw [hmd]
      rw [rowMajor_getD n n i j _ hi hj]
      rw [skipIdx_zero, skipIdx_zero]
      have hlhs := identity_get (n := n + 1) (i := i + 1) (j := j + 1) (by omega) (by omega)
      have hrhs := identity_get (n := n) (i := i) (j := j) hi hj
      rw [hlhs]
      show _ = (identity n).get (i * n + j)
      rw [hrhs]
      by_cases hij : i = j
      · rw [if_pos hij, if_pos (by omega)]
      · rw [if_neg hij, if_neg (by omega)]
  show (⟨minorData (identity (n + 1)) 0 0, n + 1 - 1, n + 1 - 1⟩ : Matrix) = identity n
  rw [hdata]
  rfl

lemma detValN_identity : ∀ n, 1 ≤ n → detValN n (identity n) = 1 := by
  intro n
  induction n using Nat.strong_induction_on with
  | _ n ih =>
    match n, ih with
    | 0, _ => intro h; exact absurd h (by omega)
    | 1, _ =>
      intro _
      have hd : (identity 1).data = [1] := by rfl
      show (identity 1).get 0 = 1
      simp [Matrix.get, hd]
    | 2, _ =>
      intro _
      have hd : (identity 2).data = [1, 0, 0, 1] := by rfl
      show (identity 2).get 0 * (identity 2).get 3 - (identity 2).get 1 * (identity 2).get 2 = 1
      simp [Matrix.get, hd]
    | 3, _ =>
      intro _
      have hd : (identity 3).data = [1, 0, 0, 0, 1, 0, 0, 0, 1] := by rfl
      show (identity 3).get 0 * (identity 3).get 4 * (identity 3).get 8 +
          (identity 3).get 1 * (identity 3).get 5 * (identity 3).get 6 +
          (identity 3).get 2 * (identity 3).get 3 * (identity 3).get 7 -
          (identity 3).get 2 * (identity 3).get 4 * (identity 3).get 6 -
          (identity 3).get 1 * (identity 3).get 3 * (identity 3).get 8 -
          (identity 3).get 0 * (identity 3).get 5 * (identity 3).get 7 = 1
      simp [Matrix.get, hd]
    | n + 4, ih =>
      intro _
      rw [detValN_laplace]
      have hcols : (identity (n + 4)).columns = n + 4 := rfl
      rw [hcols, List.range_succ_eq_map, List.map_cons, List.sum_cons]
      have hget0 : (identity (n + 4)).get 0 = 1 := by
        have h2 := identity_get (n := n + 4) (i := 0) (j := 0) (by omega) (by omega)
        simpa using h2
      have hmin : minorMatrix (identity (n + 4)) 0 0 = identity (n + 3) :=
        minorMatrix_identity (n + 3)
      have h0 : (((List.range (n + 3)).map Nat.succ).map
          (fun col => (identity (n + 4)).get col * (if col % 2 = 0 then (1 : ℚ) else -1) *
            detValN (n + 3) (minorMatrix (identity (n + 4)) 0 col))).sum = 0 := by
        apply List.sum_eq_zero
        intro x hx
        obtain ⟨a, ha, rfl⟩ := List.mem_map.mp hx
        obtain ⟨i, hi, rfl⟩ := List.mem_map.mp ha
        have hgi : (identity (n + 4)).get (Nat.succ i) = 0 := by
          have h2 := identity_get (n := n + 4) (i := 0) (j := i + 1) (by omega)
            (by have := List.mem_range.mp hi; omega)
          simp only [Nat.zero_mul, Nat.zero_add] at h2
          rw [show Nat.succ i = i + 1 from rfl, h2, if_neg (by omega)]
        rw [hgi]
        ring
      rw [h0, hget0, hmin, ih (n + 3) (by omega) (by omega)]
      norm_num

/-! Facts about the rank loop. -/

lemma eps_pos : (0 : ℚ) < eps := by norm_num [eps]

lemma zeros_rows (r c : ℕ) : (zeros r c).rows = r := rfl

lemma zeros_columns (r c : ℕ) : (zeros r c).columns = c := rfl

lemma zeros_get (r c i : ℕ) : (zeros r c).get i = 0 := getD_replicate_zero _ _

lemma rankStep_snd_le (R C : ℕ) (st : Matrix × ℕ) (col : ℕ) :
    (rankStep R C st col).2 ≤ st.2 + 1 := by
  unfold rankStep
  split
  · omega
  · exact Nat.le_refl (st.2 + 1)

lemma foldl_rankStep_le (R C : ℕ) (l : List ℕ) (st : Matrix × ℕ) :
    (l.foldl (rankStep R C) st).2 ≤ st.2 + l.length := by
  induction l generalizing st with
  | nil => simp
  | cons a t ih =>
    rw [List.foldl_cons]
    calc (t.foldl (rankStep R C) (rankStep R C st a)).2
        ≤ (rankStep R C st a).2 + t.length := ih _
    _ ≤ st.2 + 1 + t.length := by
        have := rankStep_snd_le R C st a
        omega
    _ = st.2 + (a :: t).length := by
        rw [List.length_cons]
        omega

lemma rankStep_zeros (r c rk col : ℕ) : rankStep r c (zeros r c, rk) col = (zeros r c, rk) := by
  have hfind : (List.range' rk (r - rk)).find?
      (fun row => decide (eps < |(zeros r c).get (row * c + col)|)) = none := by
    rw [List.find?_eq_none]
    intro x _
    simp only [zeros_get, abs_zero, decide_eq_true_eq]
    intro hc
    exact absurd hc (by norm_num [eps])
  simp only [rankStep]
  rw [hfind]

lemma foldl_rankStep_zeros (r c : ℕ) (l : List ℕ) :
    l.foldl (rankStep r c) (zeros r c, 0) = (zeros r c, 0) := by
  induction l with
  | nil => rfl
  | cons a t ih =>
    rw [List.foldl_cons, rankStep_zeros]
    exact ih

lemma rowReduce_identity (n s row : ℕ) (hrow : row < n) (hne : row ≠ s) (hs : s < n) :
    rowReduce n s s (identity n) row = identity n := by
  unfold rowReduce
  simp only [identity_get hrow hs, if_neg hne, zero_div, abs_zero]
  rw [if_neg (by norm_num [eps] : ¬ eps < (0 : ℚ))]

lemma elimFold_identity (n s : ℕ) (hs : s < n) :
    ∀ l : List ℕ, (∀ row ∈ l, row < n ∧ row ≠ s) →
      l.foldl (rowReduce n s s) (identity n) = identity n := by
  intro l
  induction l with
  | nil => intro _; rfl
  | cons a t ih =>
    intro hl
    rw [List.foldl_cons,
      rowReduce_identity n s a (hl a (List.mem_cons_self _ _)).1 (hl a (List.mem_cons_self _ _)).2 hs]
    exact ih (fun row hr => hl row (List.mem_cons_of_mem _ hr))

lemma identity_rankStep (n s : ℕ) (hs : s < n) :
    rankStep n n (identity n, s) s = (identity n, s + 1) := by
  have hrange : List.range' s (n - s) = s :: List.range' (s + 1) (n - s - 1) := by
    obtain ⟨d, hd⟩ : ∃ d, n - s = d + 1 := ⟨n - s - 1, by omega⟩
    conv_lhs => rw [hd, List.range'_succ]
    rw [show d = n - s - 1 by omega]
  have hpred : decide (eps < |(identity n).get (s * n + s)|) = true := by
    rw [identity_get hs hs, if_pos rfl]
    simp only [abs_one, decide_eq_true_eq]
    norm_num [eps]
  simp only [rankStep]
  rw [hrange, @List.find?_cons_of_pos ℕ
    (fun row => decide (eps < |(identity n).get (row * n + s)|)) s
    (List.range' (s + 1) (n - s - 1)) hpred]
  simp only [ne_eq, not_true_eq_false, if_neg, ite_false]
  rw [elimFold_identity n s hs _ ?hmem]
  case hmem =>
    intro row hr
    have h2 := List.mem_filter.mp hr
    exact ⟨List.mem_range.mp h2.1, by simpa using h2.2⟩

lemma identity_rank_prefix (n : ℕ) : ∀ t, t ≤ n →
    (List.range t).foldl (rankStep n n) (identity n, 0) = (identity n, t) := by
  intro t
  induction t with
  | zero => intro _; rfl
  | succ s ih =>
    intro h
    rw [List.range_succ, List.foldl_append, ih (by omega)]
    simp only [List.foldl_cons, List.foldl_nil]
    exact identity_rankStep n s (by omega)

/-! Facts about inverse. -/

lemma inverse_eq (m : Matrix) (hsq : m.rows = m.columns) :
    m.inverse = if |detVal m| < eps then .error singularMsg
      else .ok (Matrix.scalar_operation ⟨cofactorData m, m.rows, m.rows⟩ (detVal m)
        (fun x d => x / d)) := by
  unfold Matrix.inverse
  simp only [check_square_ok hsq, determinant_ok hsq]

lemma scalar_operation_div_get (c : Matrix) (det : ℚ) (i : ℕ) :
    (c.scalar_operation det (fun x d => x / d)).get i = c.get i / det := by
  show (c.data.map (fun a => a / det)).getD i 0 = c.data.getD i 0 / det
  exact getD_map_zero (fun a => a / det) (zero_div det) c.data i

lemma cofactorData_get (m : Matrix) {row col : ℕ} (hrow : row < m.rows) (hcol : col < m.rows) :
    (cofactorData m).getD (col * m.rows + row) 0 =
      (if (row + col) % 2 = 0 then (1 : ℚ) else -1) * detVal (minorMatrix m row col) := by
  unfold cofactorData
  apply foldl_set_getD_of_unique
  · show col * m.rows + row < (List.replicate (m.rows * m.rows) (1 : ℚ)).length
    rw [List.length_replicate]
    calc col * m.rows + row < col * m.rows + m.rows := by omega
    _ = (col + 1) * m.rows := (Nat.succ_mul col m.rows).symm
    _ ≤ m.rows * m.rows := Nat.mul_le_mul_right _ (by omega)
  · apply List.mem_flatMap.mpr
    refine ⟨row, List.mem_range.mpr hrow, ?_⟩
    apply List.mem_map.mpr
    exact ⟨col, List.mem_range.mpr hcol, rfl⟩
  · intro p hp hpk
    obtain ⟨r2, hr2, hp2⟩ := List.mem_flatMap.mp hp
    obtain ⟨c2, _, rfl⟩ := List.mem_map.mp hp2
    simp only at hpk ⊢
    obtain ⟨hce, hre⟩ := flat_index_inj (List.mem_range.mp hr2) hrow hpk
    rw [hce, hre]

/-! The claims. -/

/-- C1: the spec mandates the strict reading of the 3D-vector check (shape
exactly 3 x 1 or 1 x 3 AND exactly 3 elements), under which a 3 x 1 matrix with
an element count other than 3 is rejected.  The source code of check_3d_vector
violates this: Rust operator precedence attaches the length conjunct to the
1 x 3 disjunct only, so a 3 x 1 matrix holding 5 elements passes the code check
while the strict spec check rejects it. -/
theorem C1_check_3d_vector_precedence_bug :
    Matrix.check_3d_vector ⟨[0, 0, 0, 0, 0], 3, 1⟩ = true ∧
    Matrix.check_3d_vector_strict ⟨[0, 0, 0, 0, 0], 3, 1⟩ = false :=
  ⟨rfl, rfl⟩

/-- C2: determinant of a non-square matrix is a descriptive error; on a square
matrix it returns the single element for order 1, ad - bc for order 2, and for
order at least 4 the Laplace expansion along the first row with sign (-1)^col
starting at +1 for column 0, where every minor extraction and recursive
determinant inside the expansion succeeds. -/
theorem C2_determinant_branches (m : Matrix) :
    (m.rows ≠ m.columns → ∃ e, m.determinant = .error e) ∧
    (m.rows = m.columns →
      (m.rows = 1 → m.determinant = .ok (m.get 0)) ∧
      (m.rows = 2 → m.determinant = .ok (m.get 0 * m.get 3 - m.get 1 * m.get 2)) ∧
      (4 ≤ m.rows →
        (∀ col, col < m.columns →
          m.minor 0 col = .ok (minorMatrix m 0 col) ∧
          (minorMatrix m 0 col).determinant = .ok (detVal (minorMatrix m 0 col))) ∧
        m.determinant = .ok (((List.range m.columns).map
          (fun col => (-1 : ℚ) ^ col * m.get col * detVal (minorMatrix m 0 col))).sum))) := by
  constructor
  · intro h
    refine ⟨"Matrix is not square", ?_⟩
    unfold Matrix.determinant Matrix.check_square
    rw [if_pos h]
  · intro h
    refine ⟨?_, ?_, ?_⟩
    · intro h1
      rw [determinant_ok h, detVal_eq, h1]
      rfl
    · intro h2
      rw [determinant_ok h, detVal_eq, h2]
      rfl
    · intro h4
      constructor
      · intro col hcol
        exact ⟨minor_eq_ok h (by omega) hcol, determinant_ok rfl⟩
      · obtain ⟨n, hn⟩ : ∃ n, m.rows = n + 4 := ⟨m.rows - 4, by omega⟩
        have hdm : ∀ col, detVal (minorMatrix m 0 col) =
            detValN (n + 3) (minorMatrix m 0 col) := by
          intro col
          rw [detVal_eq, minorMatrix_rows, hn]
          rfl
        rw [determinant_ok h, detVal_eq, hn, detValN_laplace]
        congr 1
        apply congrArg List.sum
        apply List.map_congr_left
        intro col _
        rw [neg_one_pow_eq, hdm col]
        ring

/-- C2 witness: the non-square branch at a 1 x 3 matrix, and the Laplace branch
at a concrete 4 x 4 matrix. -/
theorem C2_determinant_branches_witness :
    (∃ e, Matrix.determinant ⟨[1, 2, 3], 1, 3⟩ = .error e) ∧
    Matrix.determinant ⟨[1, 0, 0, 0, 0, 1, 0, 0, 0, 0, 1, 0, 0, 0, 0, 1], 4, 4⟩ =
      .ok (((List.range 4).map (fun col =>
        (-1 : ℚ) ^ col *
          (⟨[1, 0, 0, 0, 0, 1, 0, 0, 0, 0, 1, 0, 0, 0, 0, 1], 4, 4⟩ : Matrix).get col *
          detVal (minorMatrix ⟨[1, 0, 0, 0, 0, 1, 0, 0, 0, 0, 1, 0, 0, 0, 0, 1], 4, 4⟩ 0 col))).sum) :=
  ⟨(C2_determinant_branches ⟨[1, 2, 3], 1, 3⟩).1 (by decide),
   (((C2_determinant_branches ⟨[1, 0, 0, 0, 0, 1, 0, 0, 0, 0, 1, 0, 0, 0, 0, 1], 4, 4⟩).2
      rfl).2.2 (by decide)).2⟩

/-- C3: for every square matrix, inverse returns the Singular error exactly when
the absolute value of the determinant is below machine epsilon; the concrete
matrix with rows (1,2) and (2,4) reports Singular on inverse and determinant
exactly 0. -/
theorem C3_inverse_singular_iff :
    (∀ m : Matrix, m.rows = m.columns →
      (m.inverse = .error singularMsg ↔ |detVal m| < eps)) ∧
    Matrix.inverse ⟨[1, 2, 2, 4], 2, 2⟩ = .error singularMsg ∧
    Matrix.determinant ⟨[1, 2, 2, 4], 2, 2⟩ = .ok 0 := by
  have hdet : detVal (⟨[1, 2, 2, 4], 2, 2⟩ : Matrix) = 0 := by
    show (1 : ℚ) * 4 - 2 * 2 = 0
    norm_num
  have hmain : ∀ m : Matrix, m.rows = m.columns →
      (m.inverse = .error singularMsg ↔ |detVal m| < eps) := by
    intro m hsq
    rw [inverse_eq m hsq]
    by_cases hlt : |detVal m| < eps
    · rw [if_pos hlt]
      exact ⟨fun _ => hlt, fun _ => rfl⟩
    · rw [if_neg hlt]
      exact ⟨fun heq => Except.noConfusion heq, fun hc => absurd hc hlt⟩
  refine ⟨hmain, ?_, ?_⟩
  · rw [inverse_eq _ rfl, hdet, abs_zero, if_pos eps_pos]
  · rw [determinant_ok rfl, hdet]

/-- C3 witness: the iff applied at the concrete singular matrix. -/
theorem C3_inverse_singular_iff_witness :
    Matrix.inverse ⟨[1, 2, 2, 4], 2, 2⟩ = .error singularMsg :=
  (C3_inverse_singular_iff.1 ⟨[1, 2, 2, 4], 2, 2⟩ rfl).mpr (by
    have hdet : detVal (⟨[1, 2, 2, 4], 2, 2⟩ : Matrix) = 0 := by
      show (1 : ℚ) * 4 - 2 * 2 = 0
      norm_num
    rw [hdet, abs_zero]
    exact eps_pos)

/-- C4: for every square matrix whose determinant has absolute value at least
machine epsilon, inverse succeeds and the entry stored at flat position
col * size + row is the cofactor (-1)^(row+col) * det(minor(row, col)) divided
by the determinant — the transposed (adjugate) placement fused into the
construction loop; every minor extraction and determinant inside it succeeds. -/
theorem C4_inverse_entries (m : Matrix) (hsq : m.rows = m.columns)
    (hdet : eps ≤ |detVal m|) :
    ∃ M, m.inverse = .ok M ∧ M.rows = m.rows ∧ M.columns = m.rows ∧
      ∀ row, row < m.rows → ∀ col, col < m.rows →
        m.minor row col = .ok (minorMatrix m row col) ∧
        (minorMatrix m row col).determinant = .ok (detVal (minorMatrix m row col)) ∧
        M.get (col * m.rows + row) =
          (-1 : ℚ) ^ (row + col) * detVal (minorMatrix m row col) / detVal m := by
  have hnlt : ¬ |detVal m| < eps := not_lt.mpr hdet
  refine ⟨Matrix.scalar_operation ⟨cofactorData m, m.rows, m.rows⟩ (detVal m) (fun x d => x / d),
    by rw [inverse_eq m hsq, if_neg hnlt], rfl, rfl, ?_⟩
  intro row hrow col hcol
  refine ⟨minor_eq_ok hsq hrow (by omega), determinant_ok rfl, ?_⟩
  rw [scalar_operation_div_get]
  show (cofactorData m).getD (col * m.rows + row) 0 / detVal m = _
  rw [cofactorData_get m hrow hcol, neg_one_pow_eq]

/-- C4 witness: the entry description applied at the invertible concrete matrix
with rows (4,7) and (2,6). -/
theorem C4_inverse_entries_witness :
    ∃ M, Matrix.inverse ⟨[4, 7, 2, 6], 2, 2⟩ = .ok M ∧ M.rows = 2 ∧ M.columns = 2 ∧
      ∀ row, row < 2 → ∀ col, col < 2 →
        Matrix.minor ⟨[4, 7, 2, 6], 2, 2⟩ row col =
          .ok (minorMatrix ⟨[4, 7, 2, 6], 2, 2⟩ row col) ∧
        (minorMatrix ⟨[4, 7, 2, 6], 2, 2⟩ row col).determinant =
          .ok (detVal (minorMatrix ⟨[4, 7, 2, 6], 2, 2⟩ row col)) ∧
        M.get (col * 2 + row) =
          (-1 : ℚ) ^ (row + col) * detVal (minorMatrix ⟨[4, 7, 2, 6], 2, 2⟩ row col) /
            detVal ⟨[4, 7, 2, 6], 2, 2⟩ :=
  C4_inverse_entries ⟨[4, 7, 2, 6], 2, 2⟩ rfl (by
    have hdet : detVal (⟨[4, 7, 2, 6], 2, 2⟩ : Matrix) = 10 := by
      show (4 : ℚ) * 6 - 7 * 2 = 10
      norm_num
    rw [hdet, show |(10 : ℚ)| = 10 from abs_of_pos (by norm_num)]
    norm_num [eps])

/-- C5: rank never exceeds min(rows, columns) for any matrix and any shape, the
rank of an all-zero matrix is 0, and the rank of identity(n) is n for n >= 1. -/
theorem C5_rank_bounds :
    (∀ m : Matrix, m.rank ≤ min m.rows m.columns) ∧
    (∀ r c, (zeros r c).rank = 0) ∧
    (∀ n, 1 ≤ n → (identity n).rank = n) := by
  refine ⟨?_, ?_, ?_⟩
  · intro m
    have h := foldl_rankStep_le m.rows m.columns (List.range (min m.rows m.columns)) (m, 0)
    unfold Matrix.rank
    simpa [List.length_range] using h
  · intro r c
    unfold Matrix.rank
    rw [zeros_rows, zeros_columns, foldl_rankStep_zeros]
  · intro n _
    unfold Matrix.rank
    rw [identity_rows, identity_columns, Nat.min_self,
      identity_rank_prefix n n (Nat.le_refl n)]

/-- C5 witness: the identity clause at n = 3 (with its hypothesis discharged)
and the other clauses instantiated. -/
theorem C5_rank_bounds_witness : (identity 3).rank = 3 :=
  C5_rank_bounds.2.2 3 (by norm_num)

/-- C6: multiply fails exactly when the inner dimensions disagree, and on
success returns an r_a x c_b matrix whose (i, j) entry is the sum over k of
a[i][k] * b[k][j]; the concrete square A = [[1,2],[3,4]] satisfies
A * A = [[7,10],[15,22]] and det A = -2. -/
theorem C6_multiply_spec :
    (∀ a b : Matrix,
      (a.columns ≠ b.rows → ∃ e, a.multiply b = .error e) ∧
      (a.columns = b.rows → ∃ M, a.multiply b = .ok M ∧ M.rows = a.rows ∧
        M.columns = b.columns ∧
        ∀ i, i < a.rows → ∀ j, j < b.columns →
          M.get (i * b.columns + j) =
            ((List.range a.columns).map
              (fun k => a.get (i * a.columns + k) * b.get (k * b.columns + j))).sum)) ∧
    Matrix.multiply ⟨[1, 2, 3, 4], 2, 2⟩ ⟨[1, 2, 3, 4], 2, 2⟩ =
      .ok ⟨[7, 10, 15, 22], 2, 2⟩ ∧
    Matrix.determinant ⟨[1, 2, 3, 4], 2, 2⟩ = .ok (-2) := by
  refine ⟨?_, ?_, ?_⟩
  · intro a b
    constructor
    · intro h
      refine ⟨"Matrix dimensions incompatible for multiplication", ?_⟩
      unfold Matrix.multiply Matrix.check_multiplication_compatible
      rw [if_pos h]
    · intro h
      have hok : a.check_multiplication_compatible b = .ok () := by
        unfold Matrix.check_multiplication_compatible
        rw [if_neg (fun hc => hc h)]
      refine ⟨⟨rowMajor a.rows b.columns (fun i j =>
          (List.range a.columns).foldl
            (fun sum k => sum + a.get (i * a.columns + k) * b.get (k * b.columns + j)) 0),
        a.rows, b.columns⟩, by simp only [Matrix.multiply, hok], rfl, rfl, ?_⟩
      intro i hi j hj
      show (rowMajor a.rows b.columns _).getD (i * b.columns + j) 0 = _
      rw [rowMajor_getD a.rows b.columns i j _ hi hj]
      rw [foldl_add_map
        (fun k => a.get (i * a.columns + k) * b.get (k * b.columns + j))
        (List.range a.columns) 0, zero_add]
  · have hm : Matrix.multiply ⟨[1, 2, 3, 4], 2, 2⟩ ⟨[1, 2, 3, 4], 2, 2⟩ =
        .ok ⟨[(0 : ℚ) + 1 * 1 + 2 * 3, 0 + 1 * 2 + 2 * 4,
              0 + 3 * 1 + 4 * 3, 0 + 3 * 2 + 4 * 4], 2, 2⟩ := rfl
    rw [hm]
    simp only [Except.ok.injEq, Matrix.mk.injEq, List.cons.injEq, and_true]
    norm_num
  · rw [determinant_ok rfl]
    have hdet : detVal (⟨[1, 2, 3, 4], 2, 2⟩ : Matrix) = -2 := by
      show (1 : ℚ) * 4 - 2 * 3 = -2
      norm_num
    rw [hdet]

/-- C6 witness: the failure clause at incompatible 1 x 2 inputs and the success
clause at the concrete 2 x 2 square. -/
theorem C6_multiply_spec_witness :
    (∃ e, Matrix.multiply ⟨[1, 2], 1, 2⟩ ⟨[3, 4], 1, 2⟩ = .error e) ∧
    (∃ M, Matrix.multiply ⟨[1, 2, 3, 4], 2, 2⟩ ⟨[1, 2, 3, 4], 2, 2⟩ = .ok M ∧
      M.rows = 2 ∧ M.columns = 2 ∧
      ∀ i, i < 2 → ∀ j, j < 2 →
        M.get (i * 2 + j) =
          ((List.range 2).map (fun k => (⟨[1, 2, 3, 4], 2, 2⟩ : Matrix).get (i * 2 + k) *
            (⟨[1, 2, 3, 4], 2, 2⟩ : Matrix).get (k * 2 + j))).sum) :=
  ⟨(C6_multiply_spec.1 ⟨[1, 2], 1, 2⟩ ⟨[3, 4], 1, 2⟩).1 (by decide),
   (C6_multiply_spec.1 ⟨[1, 2, 3, 4], 2, 2⟩ ⟨[1, 2, 3, 4], 2, 2⟩).2 rfl⟩

/-- C7: the determinant of identity(n) is exactly 1 for every n >= 1, across
all branches of the order state machine. -/
theorem C7_det_identity (n : ℕ) (h : 1 ≤ n) : (identity n).determinant = .ok 1 := by
  rw [determinant_ok (by rw [identity_rows, identity_columns]), detVal_eq, identity_rows,
    detValN_identity n h]

/-- C7 witness: n = 5 exercises the Laplace branch on top of the closed forms. -/
theorem C7_det_identity_witness : (identity 5).determinant = .ok 1 :=
  C7_det_identity 5 (by norm_num)

/-- Exact-arithmetic scaling identity of the embedded determinant algorithm:
under this file's exact-rational model of the element arithmetic, scaling an
n x n matrix by k scales the returned determinant by exactly k^n.  This records
the algebraic structure of the algorithm only; the f64 program evaluates both
sides through rounded floating-point operations, so the exact equality proved
here is a property of the idealized arithmetic, not of the f64 bit patterns. -/
theorem determinant_scaling_exact (m : Matrix) (k : ℚ) (hsq : m.rows = m.columns) :
    ∃ d, m.determinant = .ok d ∧
      (m.scalar_multiplication k).determinant = .ok (k ^ m.rows * d) := by
  refine ⟨detVal m, determinant_ok hsq, ?_⟩
  have hsq2 : (m.scalar_multiplication k).rows = (m.scalar_multiplication k).columns := hsq
  rw [determinant_ok hsq2, detVal_eq, scale_rows, detValN_scale]
  rfl

/-- C9: whenever the in-place normalize returns an error (not a vector, or zero
magnitude), the receiver is left completely unchanged: data, rows and columns
all keep their prior values. -/
theorem C9_normalize_error_unchanged (m : Matrix)
    (h : ∃ e, (m.normalize).1 = .error e) : (m.normalize).2 = m := by
  obtain ⟨e, he⟩ := h
  rcases hmag : m.magnitude with e2 | mag
  · simp [Matrix.normalize, hmag]
  · simp only [Matrix.normalize, hmag] at he ⊢
    by_cases hz : mag = 0
    · simp [hz]
    · simp [hz] at he

/-- C9 witness: a 2 x 2 receiver fails the vector check and is unchanged. -/
theorem C9_normalize_error_unchanged_witness :
    (Matrix.normalize (zeros 2 2)).2 = zeros 2 2 :=
  C9_normalize_error_unchanged (zeros 2 2)
    ⟨"Matrix must be a vector to calculate magnitude", rfl⟩

/-- C10: whenever cross_product succeeds the result is a 3 x 1 column vector
holding exactly 3 elements, regardless of the orientation of the inputs. -/
theorem C10_cross_product_shape (a b M : Matrix) (h : a.cross_product b = .ok M) :
    M.rows = 3 ∧ M.columns = 1 ∧ M.data.length = 3 := by
  unfold Matrix.cross_product at h
  split at h
  · exact absurd h (by simp)
  · rw [Except.ok.injEq] at h
    subst h
    exact ⟨rfl, rfl, rfl⟩

/-- C10 witness: two 1 x 3 row-vector inputs still produce a 3 x 1 result. -/
theorem C10_cross_product_shape_witness :
    ∃ M, Matrix.cross_product ⟨[1, 0, 0], 1, 3⟩ ⟨[0, 1, 0], 1, 3⟩ = .ok M ∧
      M.rows = 3 ∧ M.columns = 1 ∧ M.data.length = 3 :=
  ⟨_, rfl, C10_cross_product_shape ⟨[1, 0, 0], 1, 3⟩ ⟨[0, 1, 0], 1, 3⟩ _ rfl⟩

end RMath
